import Mathlib

/-!
Verification of the stack-vm repository: a shallow embedding of the
virtual machine (`src/vm.rs`) and the linker (`src/llang.rs`), together
with theorems settling the specification claims.

Machine integers (Rust `usize`) are modelled as `Nat`; every Rust
operation that can panic (out-of-bounds indexing, unsigned-subtraction
underflow, division by zero) is modelled by returning `none`.
-/

namespace StackVM

/-- Flat instruction set, mirroring `enum Cmd` in `src/vm.rs`. -/
inductive Cmd where
  | Frame (n : Nat)
  | Ret
  | Call (a : Nat)
  | LocalLoad (i : Nat)
  | LocalStore (i : Nat)
  | ArgLoad (i : Nat)
  | ArgStore (i : Nat)
  | PopR (n : Nat)
  | Const (x : Nat)
  | Add
  | Mod
  | Entry (a : Nat)
  | Eq
  | JumpIf (a : Nat)
  | Jump (a : Nat)
deriving DecidableEq, Repr

/-- Machine state, mirroring `struct VM` in `src/vm.rs`. -/
structure VM where
  fp : Nat
  sp : Nat
  pc : Nat
  stack : List Nat
  program : List Cmd
deriving DecidableEq, Repr

namespace VM

/-- `VM::new`: zeroed registers and a stack of 1000 zero slots. -/
def new (program : List Cmd) : VM :=
  { fp := 0, sp := 0, pc := 0, stack := List.replicate 1000 0, program := program }

/-- `VM::push`: write at `sp`, then increment `sp`.  Out-of-bounds write
is a panic, modelled as `none`. -/
def push (v : VM) (x : Nat) : Option VM :=
  if v.sp < v.stack.length then
    some { v with stack := v.stack.set v.sp x, sp := v.sp + 1 }
  else none

/-- `VM::peak`: read `stack[sp - 1]`; `sp = 0` underflows and an
out-of-range read panics, both modelled as `none`. -/
def peak (v : VM) : Option Nat :=
  if v.sp = 0 then none else v.stack.get? (v.sp - 1)

/-- `VM::pop`: `peak`, then decrement `sp`. -/
def pop (v : VM) : Option (Nat × VM) :=
  v.peak.map (fun x => (x, { v with sp := v.sp - 1 }))

/-- Checked write `stack[i] = x`. -/
def store (v : VM) (i x : Nat) : Option VM :=
  if i < v.stack.length then some { v with stack := v.stack.set i x } else none

/-- One step of the execution loop, mirroring the body of the VM's
command interpreter in `src/vm.rs` (fetch `program[pc]`, dispatch).
Every Rust panic is `none`. -/
def runCmd (v : VM) : Option VM :=
  match v.program.get? v.pc with
  | none => none
  | some cmd =>
    match cmd with
    | Cmd.Entry i => VM.push { v with pc := i } 0
    | Cmd.Frame n =>
      match v.push v.fp with
      | none => none
      | some v1 => some { v1 with fp := v1.sp - 1, sp := v1.sp + n, pc := v.pc + 1 }
    | Cmd.Ret =>
      match v.peak with
      | none => none
      | some res =>
        if v.fp = 0 then none
        else
          match v.stack.get? (v.fp - 1), v.stack.get? v.fp with
          | some rpc, some rfp => VM.push { v with sp := v.fp, pc := rpc, fp := rfp } res
          | _, _ => none
    | Cmd.Call i =>
      match v.push (v.pc + 1) with
      | none => none
      | some v1 => some { v1 with pc := i }
    | Cmd.LocalLoad i =>
      match v.stack.get? (v.fp + i + 1) with
      | none => none
      | some x =>
        match v.push x with
        | none => none
        | some v1 => some { v1 with pc := v.pc + 1 }
    | Cmd.LocalStore i =>
      match v.pop with
      | none => none
      | some (x, v1) =>
        match v1.store (v.fp + i + 1) x with
        | none => none
        | some v2 => some { v2 with pc := v.pc + 1 }
    | Cmd.ArgLoad i =>
      if v.fp < i + 2 then none
      else
        match v.stack.get? (v.fp - i - 2) with
        | none => none
        | some x =>
          match v.push x with
          | none => none
          | some v1 => some { v1 with pc := v.pc + 1 }
    | Cmd.ArgStore i =>
      if v.fp < i + 2 then none
      else
        match v.pop with
        | none => none
        | some (x, v1) =>
          match v1.store (v.fp - i - 2) x with
          | none => none
          | some v2 => some { v2 with pc := v.pc + 1 }
    | Cmd.PopR n =>
      match v.pop with
      | none => none
      | some (res, v1) =>
        if n = 0 then none
        else if v1.sp < n - 1 then none
        else
          match VM.push { v1 with sp := v1.sp - (n - 1) } res with
          | none => none
          | some v2 => some { v2 with pc := v.pc + 1 }
    | Cmd.Const x =>
      match v.push x with
      | none => none
      | some v1 => some { v1 with pc := v.pc + 1 }
    | Cmd.Add =>
      match v.pop with
      | none => none
      | some (x, v1) =>
        match v1.pop with
        | none => none
        | some (y, v2) =>
          match v2.push (x + y) with
          | none => none
          | some v3 => some { v3 with pc := v.pc + 1 }
    | Cmd.Mod =>
      match v.pop with
      | none => none
      | some (x, v1) =>
        match v1.pop with
        | none => none
        | some (y, v2) =>
          if y = 0 then none
          else
            match v2.push (x % y) with
            | none => none
            | some v3 => some { v3 with pc := v.pc + 1 }
    | Cmd.Eq =>
      match v.pop with
      | none => none
      | some (x, v1) =>
        match v1.pop with
        | none => none
        | some (y, v2) =>
          match v2.push (if x = y then 1 else 0) with
          | none => none
          | some v3 => some { v3 with pc := v.pc + 1 }
    | Cmd.JumpIf i =>
      match v.pop with
      | none => none
      | some (x, v1) =>
        if x ≠ 0 then some { v1 with pc := i } else some { v1 with pc := v.pc + 1 }
    | Cmd.Jump i => some { v with pc := i }

/-- The `while pc != 0` part of `VM::run`, with explicit fuel:
once `pc = 0` the result is the current top of stack. -/
def runFrom : Nat → VM → Option Nat
  | 0, v => if v.pc = 0 then v.peak else none
  | fuel + 1, v =>
    if v.pc = 0 then v.peak
    else
      match runCmd v with
      | none => none
      | some u => runFrom fuel u

/-- `VM::run`: execute one command unconditionally, then loop while
`pc ≠ 0`, and return the top of stack. -/
def run (fuel : Nat) (v : VM) : Option Nat :=
  match runCmd v with
  | none => none
  | some u => runFrom fuel u

end VM

/-- Intermediate instruction set of the linker, mirroring `enum LLangCmd`
in `src/llang.rs`.  `Call`/`Entry` carry a function index (`FnIndex`);
`JumpIf`/`Jump` carry a function index and an operation index
(`RelativeFnIndex`). -/
inductive LLangCmd where
  | Frame (n : Nat)
  | Ret
  | Call (i : Nat)
  | LocalLoad (x : Nat)
  | LocalStore (x : Nat)
  | ArgLoad (x : Nat)
  | ArgStore (x : Nat)
  | PopR (x : Nat)
  | Const (x : Nat)
  | Add
  | Mod
  | Entry (i : Nat)
  | Eq
  | JumpIf (i x : Nat)
  | Jump (i x : Nat)
deriving DecidableEq, Repr

/-- Structured operation set, mirroring `enum Op` in `src/llang.rs`. -/
inductive Op where
  | Call (x : Nat)
  | LocalLoad (x : Nat)
  | LocalStore (x : Nat)
  | ArgLoad (x : Nat)
  | ArgStore (x : Nat)
  | Const (x : Nat)
  | Add
  | Mod
  | Eq
  | JumpIf (x : Nat)
  | Jump (x : Nat)
  | PopR (x : Nat)
deriving DecidableEq, Repr

/-- Structured function, mirroring `struct Func` in `src/llang.rs`. -/
structure Func where
  local_count : Nat
  ops : List Op
deriving DecidableEq, Repr

/-- Structured program, mirroring `struct LLang` in `src/llang.rs`. -/
structure LLang where
  entry : Nat
  funcs : List Func
deriving DecidableEq, Repr

/-- Emission buffer, mirroring `struct CmdGen` in `src/llang.rs`:
the emitted intermediate commands plus the recorded start position of
each `Frame` (one per function). -/
structure CmdGen where
  cmds : List LLangCmd
  funcs : List Nat
deriving DecidableEq, Repr

namespace CmdGen

/-- `CmdGen::new`. -/
def new : CmdGen := { cmds := [], funcs := [] }

/-- `CmdGen::push`: a `Frame` additionally records the current emission
position as the next function's start address. -/
def push (g : CmdGen) (cmd : LLangCmd) : CmdGen :=
  { cmds := g.cmds ++ [cmd]
    funcs :=
      match cmd with
      | LLangCmd.Frame _ => g.funcs ++ [g.cmds.length]
      | _ => g.funcs }

end CmdGen

namespace LLangCmd

/-- Per-command resolution used by `CmdGen::to_cmds`: function indices
are looked up in the recorded start-address table (`funcs[i]`), a jump
target becomes `funcs[i] + x + 1`.  A Rust out-of-bounds table lookup
panic is modelled as `none`. -/
def toCmd (funcs : List Nat) : LLangCmd → Option Cmd
  | LLangCmd.Frame x => some (Cmd.Frame x)
  | LLangCmd.Ret => some Cmd.Ret
  | LLangCmd.Call i => (funcs.get? i).map Cmd.Call
  | LLangCmd.LocalLoad x => some (Cmd.LocalLoad x)
  | LLangCmd.LocalStore x => some (Cmd.LocalStore x)
  | LLangCmd.ArgLoad x => some (Cmd.ArgLoad x)
  | LLangCmd.ArgStore x => some (Cmd.ArgStore x)
  | LLangCmd.PopR x => some (Cmd.PopR x)
  | LLangCmd.Const x => some (Cmd.Const x)
  | LLangCmd.Add => some Cmd.Add
  | LLangCmd.Mod => some Cmd.Mod
  | LLangCmd.Entry i => (funcs.get? i).map Cmd.Entry
  | LLangCmd.Eq => some Cmd.Eq
  | LLangCmd.JumpIf i x => (funcs.get? i).map (fun f => Cmd.JumpIf (f + x + 1))
  | LLangCmd.Jump i x => (funcs.get? i).map (fun f => Cmd.Jump (f + x + 1))

end LLangCmd

/-- Option-valued map: `some` exactly when every element resolves
(a Rust `map` whose body can panic). -/
def mapOpt (f : α → Option β) : List α → Option (List β)
  | [] => some []
  | x :: xs =>
    match f x, mapOpt f xs with
    | some y, some ys => some (y :: ys)
    | _, _ => none

/-- `CmdGen::to_cmds`: resolve every emitted command against the
recorded start-address table. -/
def CmdGen.to_cmds (g : CmdGen) : Option (List Cmd) :=
  mapOpt (LLangCmd.toCmd g.funcs) g.cmds

namespace Op

/-- `Op::convert`: translate one structured operation, tagging jumps
with the index of the function currently being emitted. -/
def convert (fn_index : Nat) : Op → LLangCmd
  | Op.Call x => LLangCmd.Call x
  | Op.LocalLoad x => LLangCmd.LocalLoad x
  | Op.LocalStore x => LLangCmd.LocalStore x
  | Op.ArgLoad x => LLangCmd.ArgLoad x
  | Op.ArgStore x => LLangCmd.ArgStore x
  | Op.Const x => LLangCmd.Const x
  | Op.Add => LLangCmd.Add
  | Op.Mod => LLangCmd.Mod
  | Op.Eq => LLangCmd.Eq
  | Op.JumpIf x => LLangCmd.JumpIf fn_index x
  | Op.Jump x => LLangCmd.Jump fn_index x
  | Op.PopR x => LLangCmd.PopR x

end Op

/-- `Func::convert`: emit `Frame(local_count)`, the translated
operations in order, then `Ret`. -/
def Func.convert (f : Func) (fn_index : Nat) (g : CmdGen) : CmdGen :=
  (f.ops.foldl (fun g op => g.push (op.convert fn_index)) (g.push (LLangCmd.Frame f.local_count))).push LLangCmd.Ret

/-- The emission pass of `LLang::convert`: push `Entry(entry)` first,
then convert each function in program order. -/
def LLang.gen (l : LLang) : CmdGen :=
  l.funcs.enum.foldl (fun g p => p.2.convert p.1 g) (CmdGen.new.push (LLangCmd.Entry l.entry))

/-- `LLang::convert`: emit, then resolve. -/
def LLang.convert (l : LLang) : Option (List Cmd) :=
  l.gen.to_cmds

/-! ### Derived layout descriptions of the linker's output -/

/-- Number of flat slots a function occupies: `Frame`, its operations,
`Ret`. -/
def funcLen (f : Func) : Nat := f.ops.length + 2

/-- The intermediate commands emitted for one function. -/
def funcFlat (i : Nat) (f : Func) : List LLangCmd :=
  LLangCmd.Frame f.local_count :: (f.ops.map (Op.convert i) ++ [LLangCmd.Ret])

/-- The intermediate commands emitted for the functions, the first one
carrying index `k`. -/
def segsFrom : Nat → List Func → List LLangCmd
  | _, [] => []
  | k, f :: fs => funcFlat k f ++ segsFrom (k + 1) fs

/-- Start addresses of consecutive functions, the first one placed at
`b`. -/
def partialStarts : Nat → List Func → List Nat
  | _, [] => []
  | b, f :: fs => b :: partialStarts (b + funcLen f) fs

/-- Start address of function `j`: one slot for the leading `Entry`,
plus two slots (`Frame`, `Ret`) and the operation count of every
earlier function. -/
def startAddr (fs : List Func) (j : Nat) : Nat :=
  1 + ((fs.take j).map funcLen).sum

/-- An operation's symbolic references are in range: `Call` names an
existing function, a jump names an existing operation of the enclosing
function. -/
def opInRange (n : Nat) (f : Func) : Op → Bool
  | Op.Call j => j < n
  | Op.Jump x => x < f.ops.length
  | Op.JumpIf x => x < f.ops.length
  | _ => true

/-- Well-formed structured program: entry index and all symbolic
references in range. -/
def LLang.wf (l : LLang) : Prop :=
  l.entry < l.funcs.length ∧
    ∀ f ∈ l.funcs, ∀ op ∈ f.ops, opInRange l.funcs.length f op = true

/-! ### Execution traces and frame-local execution -/

/-- Addresses of the instructions executed by the `while pc != 0` loop
(stopping at halt, failure, or fuel exhaustion). -/
def pcTrace : Nat → VM → List Nat
  | 0, _ => []
  | fuel + 1, v =>
    if v.pc = 0 then []
    else
      match VM.runCmd v with
      | none => []
      | some u => v.pc :: pcTrace fuel u

/-- Addresses of all instructions fetched by `run`: the unconditional
first fetch at `v.pc`, then the loop's fetches. -/
def runTrace (fuel : Nat) (v : VM) : List Nat :=
  v.pc ::
    match VM.runCmd v with
    | none => []
    | some u => pcTrace fuel u

/-- Commands that stay inside the current frame: everything except
`Frame`, `Ret`, `Call` and `Entry` (which create, destroy or change
frames). -/
def localCmd : Cmd → Prop
  | Cmd.Frame _ => False
  | Cmd.Ret => False
  | Cmd.Call _ => False
  | Cmd.Entry _ => False
  | _ => True

/-- Frame-local commands that write the new top-of-stack slot (all of
them except the jumps and the stores, which either write nothing or
write a designated slot). -/
def writesTop : Cmd → Prop
  | Cmd.Jump _ => False
  | Cmd.JumpIf _ => False
  | Cmd.LocalStore _ => False
  | Cmd.ArgStore _ => False
  | _ => True

/-- Execution chains whose every step satisfies a side condition `Q`
relating the pre-state, the executed command and the post-state. -/
inductive Reach (Q : VM → Cmd → VM → Prop) : VM → VM → Prop where
  | refl (v : VM) : Reach Q v v
  | step {s t u : VM} {c : Cmd} (hr : Reach Q s t)
      (hc : t.program.get? t.pc = some c)
      (hs : VM.runCmd t = some u) (hq : Q t c u) : Reach Q s u

/-- Steps allowed "inside the callee's frame" for the argument-access
invariant: frame-local, no argument store, and the stack pointer never
drops below the callee's frame pointer `f`. -/
def argQ (f : Nat) : VM → Cmd → VM → Prop :=
  fun _ c u => localCmd c ∧ (∀ j, c ≠ Cmd.ArgStore j) ∧ f ≤ u.sp

/-- Steps allowed before the first `LocalStore i` of a frame with frame
pointer `f`: frame-local, not a store to local `i`, and any command
that writes the top slot leaves the stack pointer strictly above the
local's slot `f + i + 1`. -/
def localQ (f i : Nat) : VM → Cmd → VM → Prop :=
  fun _ c u =>
    localCmd c ∧ (∀ j, c = Cmd.LocalStore j → j ≠ i) ∧
      (writesTop c → f + i + 2 < u.sp)

/-! ### The example programs of the repository's tests -/

/-- The flat addition example of the test in `src/vm.rs`:
`add(1, 2)`. -/
def addProg : List Cmd :=
  [Cmd.Entry 1, Cmd.Frame 0, Cmd.Const 1, Cmd.Const 2, Cmd.Call 7, Cmd.PopR 2,
   Cmd.Ret, Cmd.Frame 0, Cmd.ArgLoad 0, Cmd.ArgLoad 1, Cmd.Add, Cmd.Ret]

/-- The structured Euclidean-remainder example of the test in
`src/llang.rs`: `gcd(182, 1029)` by repeated `Mod`. -/
def gcdLL : LLang :=
  { entry := 0
    funcs :=
      [ { local_count := 0
          ops := [Op.Const 182, Op.Const 1029, Op.Call 1, Op.PopR 2] }
      , { local_count := 0
          ops := [Op.ArgLoad 0, Op.Const 0, Op.Eq, Op.JumpIf 5, Op.Jump 7,
                  Op.ArgLoad 1, Op.Jump 13, Op.ArgLoad 0, Op.ArgLoad 0,
                  Op.ArgLoad 1, Op.Mod, Op.Call 1, Op.PopR 2] } ] }

/-! ## Claim theorems -/

set_option maxRecDepth 100000 in
/-- C5: `run` on the flat addition example program (`add` applied to
`1` and `2`) terminates and returns `3`, and `run` on the linked
Euclidean-remainder recursive example (`gcd` applied to `182` and
`1029`) terminates and returns `7`. -/
theorem link_run_examples :
    VM.run 300 (VM.new addProg) = some 3 ∧
    gcdLL.convert.bind (fun cs => VM.run 300 (VM.new cs)) = some 7 := by
  decide

/-- C1 counterexample: on the state whose stack holds `5` below `3`
(so `x = 3` is popped first, `y = 5` second), the code pushes
`3 % 5 = 3`, not `y mod x = 5 % 3 = 2`: the first-popped value is the
dividend, not the divisor. -/
theorem mod_divisor_claim_false :
    (VM.runCmd ⟨0, 2, 0, [5, 3], [Cmd.Mod]⟩).bind VM.peak = some 3 ∧
    (5 : Nat) % 3 = 2 ∧ (3 : Nat) % 5 = 3 := by decide

/-- C1 (amended): executing `Mod` pops `x` (the topmost value), then
pops `y`, and pushes `x mod y` — the first-popped value `x` is the
dividend and the second-popped `y` the divisor (which must be nonzero,
division by zero being a panic) — leaving `sp` one lower than before
and `pc` incremented by one. -/
theorem mod_step (s : VM) (x y : Nat)
    (hc : s.program.get? s.pc = some Cmd.Mod)
    (hx : s.stack.get? (s.sp - 1) = some x)
    (hy : s.stack.get? (s.sp - 2) = some y)
    (hsp : 2 ≤ s.sp) (hy0 : y ≠ 0) :
    VM.runCmd s = some ⟨s.fp, s.sp - 1, s.pc + 1, s.stack.set (s.sp - 2) (x % y), s.program⟩ := by
  have h0 : s.sp ≠ 0 := by omega
  have h1 : s.sp - 1 ≠ 0 := by omega
  have h2 : s.sp - 1 - 1 = s.sp - 2 := by omega
  have hlen : s.sp - 2 < s.stack.length := (List.get?_eq_some.mp hy).1
  simp only [VM.runCmd, hc, VM.pop, VM.peak, h0, if_false, hx, Option.map_some']
  simp only [h1, if_false, h2, hy, Option.map_some', VM.push, List.length_set, hlen,
    if_true, if_neg hy0]
  have h3 : s.sp - 2 + 1 = s.sp - 1 := by omega
  simp only [h3]

/-- C1 witness: `mod_step` on the concrete counterexample state. -/
theorem mod_step_witness :
    VM.runCmd ⟨0, 2, 0, [5, 3], [Cmd.Mod]⟩ = some ⟨0, 1, 1, [3, 3], [Cmd.Mod]⟩ :=
  mod_step ⟨0, 2, 0, [5, 3], [Cmd.Mod]⟩ 3 5 rfl rfl rfl (by decide) (by decide)

/-- C9 counterexample: the state with exactly one live stack value
executing `PopR 2` (so `n = 2 ≥ 1`) does not complete as a normal
step — `sp -= n - 1` underflows — refuting that `n ≥ 1` together with
one live value suffices for a normal `Squash` step. -/
theorem popr_total_claim_false :
    VM.runCmd ⟨0, 1, 0, [42], [Cmd.PopR 2]⟩ = none ∧
    (1 : Nat) ≤ 2 ∧ 0 < (1 : Nat) := by decide

/-- C9 (amended): `Squash` is total only under the precondition
`1 ≤ n ≤ sp`: then `PopR n` pops the top value `r`, lowers `sp` by
`n - 1`, and pushes `r` back (so `PopR 1` leaves `sp` and the stack
unchanged).  `PopR 0` evaluates the underflowing unsigned subtraction
`0 - 1` and errors, and `PopR n` with `n > sp` underflows `sp` and
errors as well. -/
theorem squash_semantics (s : VM) :
    (∀ n r, s.program.get? s.pc = some (Cmd.PopR n) →
      s.stack.get? (s.sp - 1) = some r → 1 ≤ n → n ≤ s.sp →
      VM.runCmd s = some ⟨s.fp, s.sp - n + 1, s.pc + 1, s.stack.set (s.sp - n) r, s.program⟩ ∧
      (n = 1 → VM.runCmd s = some ⟨s.fp, s.sp, s.pc + 1, s.stack, s.program⟩)) ∧
    (s.program.get? s.pc = some (Cmd.PopR 0) → VM.runCmd s = none) ∧
    (∀ n, s.program.get? s.pc = some (Cmd.PopR n) → s.sp < n → VM.runCmd s = none) := by
  refine ⟨?_, ?_, ?_⟩
  · intro n r hc hr h1 hn
    have h0 : s.sp ≠ 0 := by omega
    have hlt : ¬ (s.sp - 1 < n - 1) := by omega
    have hlen : s.sp - 1 < s.stack.length := (List.get?_eq_some.mp hr).1
    have harr : s.sp - 1 - (n - 1) = s.sp - n := by omega
    have hmain : VM.runCmd s =
        some ⟨s.fp, s.sp - n + 1, s.pc + 1, s.stack.set (s.sp - n) r, s.program⟩ := by
      simp only [VM.runCmd, hc, VM.pop, VM.peak, h0, if_false, hr, Option.map_some']
      have hne : n ≠ 0 := by omega
      have hlen3 : s.sp - n < s.stack.length := by omega
      simp only [hne, if_false, hlt, VM.push, harr, hlen3, if_true]
    refine ⟨hmain, ?_⟩
    intro he
    subst he
    have hstack : s.stack.set (s.sp - 1) r = s.stack := by
      apply List.ext_get?
      intro k
      rcases eq_or_ne k (s.sp - 1) with h | h
      · subst h
        rw [List.get?_set_eq, hr]
        rfl
      · rw [List.get?_set_ne _ _ (Ne.symm h)]
    have hsp1 : s.sp - 1 + 1 = s.sp := by omega
    simpa [hstack, hsp1] using hmain
  · intro hc
    simp only [VM.runCmd, hc, VM.pop, VM.peak]
    rcases eq_or_ne s.sp 0 with h | h
    · simp [h]
    · simp only [h, if_false]
      cases hg : s.stack.get? (s.sp - 1) <;> simp
  · intro n hc hlt
    simp only [VM.runCmd, hc, VM.pop, VM.peak]
    rcases eq_or_ne s.sp 0 with h | h
    · simp [h]
    · simp only [h, if_false]
      cases hg : s.stack.get? (s.sp - 1)
      · simp
      · simp only [Option.map_some']
        have hne : ¬ n = 0 := by omega
        have hlt2 : s.sp - 1 < n - 1 := by omega
        simp [hne, hlt2]

/-- C9 witness: `squash_semantics` on a concrete two-value stack with
`PopR 2`, and on a concrete `PopR 0` state. -/
theorem squash_semantics_witness :
    VM.runCmd ⟨0, 2, 0, [7, 9], [Cmd.PopR 2]⟩ = some ⟨0, 1, 1, [9, 9], [Cmd.PopR 2]⟩ ∧
    VM.runCmd ⟨0, 1, 0, [7], [Cmd.PopR 0]⟩ = none :=
  ⟨((squash_semantics ⟨0, 2, 0, [7, 9], [Cmd.PopR 2]⟩).1 2 9 rfl rfl (by decide) (by decide)).1,
   (squash_semantics ⟨0, 1, 0, [7], [Cmd.PopR 0]⟩).2.1 rfl⟩

/-- C7: the execution loop stops the instant `pc` becomes `0` after any
instruction has executed: the loop body never runs at address `0`
(so `program[0]` executes only once, as the very first fetched
instruction of `run` on a fresh VM, whose initial `pc` is `0`), and
once a step lands on `pc = 0` the result of `run` is the top-of-stack
value at that instant. -/
theorem halt_semantics (fuel : Nat) (s t : VM) (p : List Cmd) :
    (t.pc = 0 → VM.runFrom fuel t = t.peak) ∧
    (∀ q ∈ pcTrace fuel t, q ≠ 0) ∧
    (VM.runCmd s = some t → t.pc = 0 → VM.run fuel s = t.peak) ∧
    (runTrace fuel (VM.new p)).head? = some 0 ∧
    List.count 0 (runTrace fuel (VM.new p)) = 1 := by
  have h1 : ∀ (fuel : Nat) (t : VM), t.pc = 0 → VM.runFrom fuel t = t.peak := by
    intro fuel t ht
    cases fuel <;> simp [VM.runFrom, ht]
  have h2 : ∀ (fuel : Nat) (t : VM), ∀ q ∈ pcTrace fuel t, q ≠ 0 := by
    intro fuel
    induction fuel with
    | zero => intro t q hq; simp [pcTrace] at hq
    | succ fuel ih =>
      intro t q hq
      by_cases ht : t.pc = 0
      · simp [pcTrace, ht] at hq
      · simp only [pcTrace, ht, if_false] at hq
        cases hs : VM.runCmd t with
        | none => rw [hs] at hq; simp at hq
        | some u =>
          rw [hs] at hq
          rcases List.mem_cons.mp hq with h | h
          · subst h; exact ht
          · exact ih u q h
  refine ⟨h1 fuel t, h2 fuel t, ?_, ?_, ?_⟩
  · intro hs ht
    simp only [VM.run, hs]
    exact h1 fuel t ht
  · rfl
  · simp only [runTrace]
    have hz : (VM.new p).pc = 0 := rfl
    rw [hz]
    cases hs : VM.runCmd (VM.new p) with
    | none => simp
    | some u =>
      simp only [List.count_cons]
      have : List.count 0 (pcTrace fuel u) = 0 := by
        apply List.count_eq_zero.mpr
        intro hmem
        exact (h2 fuel u 0 hmem) rfl
      simp [this]

/-- C7 witness: a state already at the halt sentinel returns its top of
stack for any fuel, and a `run` whose first step jumps to `0` returns
the top of stack at that instant. -/
theorem halt_semantics_witness :
    VM.runFrom 2 ⟨0, 1, 0, [9], [Cmd.Ret]⟩ = some 9 ∧
    VM.run 2 ⟨1, 1, 0, [8, 5], [Cmd.Jump 0]⟩ = some 8 :=
  ⟨(halt_semantics 2 ⟨1, 1, 0, [8, 5], [Cmd.Jump 0]⟩ ⟨0, 1, 0, [9], [Cmd.Ret]⟩ []).1 rfl,
   (halt_semantics 2 ⟨1, 1, 0, [8, 5], [Cmd.Jump 0]⟩ ⟨1, 1, 0, [8, 5], [Cmd.Jump 0]⟩ []).2.2.1 rfl rfl⟩

/-! ### Inversion lemmas for the stack primitives -/

theorem push_eq_some {v : VM} {x : Nat} {v1 : VM} (h : VM.push v x = some v1) :
    v.sp < v.stack.length ∧ v1 = { v with stack := v.stack.set v.sp x, sp := v.sp + 1 } := by
  unfold VM.push at h
  by_cases hl : v.sp < v.stack.length
  · rw [if_pos hl] at h
    cases h
    exact ⟨hl, rfl⟩
  · rw [if_neg hl] at h
    cases h

theorem pop_eq_some {v : VM} {x : Nat} {v1 : VM} (h : VM.pop v = some (x, v1)) :
    v.sp ≠ 0 ∧ v.stack.get? (v.sp - 1) = some x ∧ v1 = { v with sp := v.sp - 1 } := by
  unfold VM.pop VM.peak at h
  by_cases h0 : v.sp = 0
  · simp [h0] at h
  · rw [if_neg h0] at h
    cases hg : v.stack.get? (v.sp - 1) with
    | none => rw [hg] at h; cases h
    | some y =>
      rw [hg] at h
      simp only [Option.map_some'] at h
      cases h
      exact ⟨h0, rfl, rfl⟩

theorem store_eq_some {v : VM} {i x : Nat} {v2 : VM} (h : VM.store v i x = some v2) :
    i < v.stack.length ∧ v2 = { v with stack := v.stack.set i x } := by
  unfold VM.store at h
  by_cases hl : i < v.stack.length
  · rw [if_pos hl] at h
    cases h
    exact ⟨hl, rfl⟩
  · rw [if_neg hl] at h
    cases h

/-- A successful frame-local step preserves `fp`, the program, the
stack length, and every stack slot other than the one it writes (the
slot just below the new `sp` for the push-producing commands, the
designated local or argument slot for the stores). -/
theorem runCmd_local {t u : VM} {c : Cmd}
    (hc : t.program.get? t.pc = some c) (hl : localCmd c)
    (hs : VM.runCmd t = some u) :
    u.fp = t.fp ∧ u.program = t.program ∧ u.stack.length = t.stack.length ∧
    ∀ k, (writesTop c → k ≠ u.sp - 1) →
      (∀ j, c = Cmd.LocalStore j → k ≠ t.fp + j + 1) →
      (∀ j, c = Cmd.ArgStore j → k ≠ t.fp - j - 2) →
      u.stack.get? k = t.stack.get? k := by
  cases c with
  | Frame n => exact hl.elim
  | Ret => exact hl.elim
  | Call a => exact hl.elim
  | Entry a => exact hl.elim
  | Jump a =>
    simp only [VM.runCmd, hc] at hs
    cases hs
    exact ⟨rfl, rfl, rfl, fun k _ _ _ => rfl⟩
  | JumpIf a =>
    simp only [VM.runCmd, hc] at hs
    cases hp : VM.pop t with
    | none => rw [hp] at hs; cases hs
    | some xv =>
      obtain ⟨x, v1⟩ := xv
      rw [hp] at hs
      dsimp only at hs
      obtain ⟨h0, hg, rfl⟩ := pop_eq_some hp
      by_cases hx : x ≠ 0
      · rw [if_pos hx] at hs
        cases hs
        exact ⟨rfl, rfl, rfl, fun k _ _ _ => rfl⟩
      · rw [if_neg hx] at hs
        cases hs
        exact ⟨rfl, rfl, rfl, fun k _ _ _ => rfl⟩
  | LocalLoad i =>
    simp only [VM.runCmd, hc] at hs
    cases hg : t.stack.get? (t.fp + i + 1) with
    | none => rw [hg] at hs; cases hs
    | some x =>
      rw [hg] at hs
      dsimp only at hs
      cases hp : VM.push t x with
      | none => rw [hp] at hs; cases hs
      | some v1 =>
        rw [hp] at hs
        dsimp only at hs
        cases hs
        obtain ⟨hlen, rfl⟩ := push_eq_some hp
        refine ⟨rfl, rfl, by simp, ?_⟩
        intro k hw _ _
        have hk : k ≠ t.sp := by simpa using hw trivial
        exact List.get?_set_ne _ _ (Ne.symm hk)
  | Const x =>
    simp only [VM.runCmd, hc] at hs
    cases hp : VM.push t x with
    | none => rw [hp] at hs; cases hs
    | some v1 =>
      rw [hp] at hs
      dsimp only at hs
      cases hs
      obtain ⟨hlen, rfl⟩ := push_eq_some hp
      refine ⟨rfl, rfl, by simp, ?_⟩
      intro k hw _ _
      have hk : k ≠ t.sp := by simpa using hw trivial
      exact List.get?_set_ne _ _ (Ne.symm hk)
  | ArgLoad i =>
    simp only [VM.runCmd, hc] at hs
    by_cases hf : t.fp < i + 2
    · rw [if_pos hf] at hs; cases hs
    · rw [if_neg hf] at hs
      cases hg : t.stack.get? (t.fp - i - 2) with
      | none => rw [hg] at hs; cases hs
      | some x =>
        rw [hg] at hs
        dsimp only at hs
        cases hp : VM.push t x with
        | none => rw [hp] at hs; cases hs
        | some v1 =>
          rw [hp] at hs
          dsimp only at hs
          cases hs
          obtain ⟨hlen, rfl⟩ := push_eq_some hp
          refine ⟨rfl, rfl, by simp, ?_⟩
          intro k hw _ _
          have hk : k ≠ t.sp := by simpa using hw trivial
          exact List.get?_set_ne _ _ (Ne.symm hk)
  | LocalStore i =>
    simp only [VM.runCmd, hc] at hs
    cases hp : VM.pop t with
    | none => rw [hp] at hs; cases hs
    | some xv =>
      obtain ⟨x, v1⟩ := xv
      rw [hp] at hs
      dsimp only at hs
      obtain ⟨h0, hg, rfl⟩ := pop_eq_some hp
      cases hst : VM.store { t with sp := t.sp - 1 } (t.fp + i + 1) x with
      | none => rw [hst] at hs; cases hs
      | some v2 =>
        rw [hst] at hs
        dsimp only at hs
        cases hs
        obtain ⟨hlen, rfl⟩ := store_eq_some hst
        refine ⟨rfl, rfl, by simp, ?_⟩
        intro k _ hloc _
        have hk : k ≠ t.fp + i + 1 := hloc i rfl
        exact List.get?_set_ne _ _ (Ne.symm hk)
  | ArgStore i =>
    simp only [VM.runCmd, hc] at hs
    by_cases hf : t.fp < i + 2
    · rw [if_pos hf] at hs; cases hs
    · rw [if_neg hf] at hs
      cases hp : VM.pop t with
      | none => rw [hp] at hs; cases hs
      | some xv =>
        obtain ⟨x, v1⟩ := xv
        rw [hp] at hs
        dsimp only at hs
        obtain ⟨h0, hg, rfl⟩ := pop_eq_some hp
        cases hst : VM.store { t with sp := t.sp - 1 } (t.fp - i - 2) x with
        | none => rw [hst] at hs; cases hs
        | some v2 =>
          rw [hst] at hs
          dsimp only at hs
          cases hs
          obtain ⟨hlen, rfl⟩ := store_eq_some hst
          refine ⟨rfl, rfl, by simp, ?_⟩
          intro k _ _ harg
          have hk : k ≠ t.fp - i - 2 := harg i rfl
          exact List.get?_set_ne _ _ (Ne.symm hk)
  | PopR n =>
    simp only [VM.runCmd, hc] at hs
    cases hp : VM.pop t with
    | none => rw [hp] at hs; cases hs
    | some xv =>
      obtain ⟨res, v1⟩ := xv
      rw [hp] at hs
      dsimp only at hs
      obtain ⟨h0, hg, rfl⟩ := pop_eq_some hp
      by_cases hn : n = 0
      · rw [if_pos hn] at hs; cases hs
      · rw [if_neg hn] at hs
        by_cases hlt : t.sp - 1 < n - 1
        · rw [if_pos hlt] at hs; cases hs
        · rw [if_neg hlt] at hs
          cases hp2 : VM.push { t with sp := t.sp - 1 - (n - 1) } res with
          | none => rw [hp2] at hs; cases hs
          | some v2 =>
            rw [hp2] at hs
            dsimp only at hs
            cases hs
            obtain ⟨hlen, rfl⟩ := push_eq_some hp2
            refine ⟨rfl, rfl, by simp, ?_⟩
            intro k hw _ _
            have hk : k ≠ t.sp - 1 - (n - 1) := by simpa using hw trivial
            exact List.get?_set_ne _ _ (Ne.symm hk)
  | Add =>
    simp only [VM.runCmd, hc] at hs
    cases hp : VM.pop t with
    | none => rw [hp] at hs; cases hs
    | some xv =>
      obtain ⟨x, v1⟩ := xv
      rw [hp] at hs
      dsimp only at hs
      obtain ⟨h0, hg, rfl⟩ := pop_eq_some hp
      cases hp2 : VM.pop { t with sp := t.sp - 1 } with
      | none => rw [hp2] at hs; cases hs
      | some yv =>
        obtain ⟨y, v2⟩ := yv
        rw [hp2] at hs
        dsimp only at hs
        obtain ⟨h02, hg2, rfl⟩ := pop_eq_some hp2
        cases hp3 : VM.push { t with sp := t.sp - 1 - 1 } (x + y) with
        | none => rw [hp3] at hs; cases hs
        | some v3 =>
          rw [hp3] at hs
          dsimp only at hs
          cases hs
          obtain ⟨hlen, rfl⟩ := push_eq_some hp3
          refine ⟨rfl, rfl, by simp, ?_⟩
          intro k hw _ _
          have hk : k ≠ t.sp - 1 - 1 := by simpa using hw trivial
          exact List.get?_set_ne _ _ (Ne.symm hk)
  | Mod =>
    simp only [VM.runCmd, hc] at hs
    cases hp : VM.pop t with
    | none => rw [hp] at hs; cases hs
    | some xv =>
      obtain ⟨x, v1⟩ := xv
      rw [hp] at hs
      dsimp only at hs
      obtain ⟨h0, hg, rfl⟩ := pop_eq_some hp
      cases hp2 : VM.pop { t with sp := t.sp - 1 } with
      | none => rw [hp2] at hs; cases hs
      | some yv =>
        obtain ⟨y, v2⟩ := yv
        rw [hp2] at hs
        dsimp only at hs
        obtain ⟨h02, hg2, rfl⟩ := pop_eq_some hp2
        by_cases hy : y = 0
        · rw [if_pos hy] at hs; cases hs
        · rw [if_neg hy] at hs
          cases hp3 : VM.push { t with sp := t.sp - 1 - 1 } (x % y) with
          | none => rw [hp3] at hs; cases hs
          | some v3 =>
            rw [hp3] at hs
            dsimp only at hs
            cases hs
            obtain ⟨hlen, rfl⟩ := push_eq_some hp3
            refine ⟨rfl, rfl, by simp, ?_⟩
            intro k hw _ _
            have hk : k ≠ t.sp - 1 - 1 := by simpa using hw trivial
            exact List.get?_set_ne _ _ (Ne.symm hk)
  | Eq =>
    simp only [VM.runCmd, hc] at hs
    cases hp : VM.pop t with
    | none => rw [hp] at hs; cases hs
    | some xv =>
      obtain ⟨x, v1⟩ := xv
      rw [hp] at hs
      dsimp only at hs
      obtain ⟨h0, hg, rfl⟩ := pop_eq_some hp
      cases hp2 : VM.pop { t with sp := t.sp - 1 } with
      | none => rw [hp2] at hs; cases hs
      | some yv =>
        obtain ⟨y, v2⟩ := yv
        rw [hp2] at hs
        dsimp only at hs
        obtain ⟨h02, hg2, rfl⟩ := pop_eq_some hp2
        cases hp3 : VM.push { t with sp := t.sp - 1 - 1 } (if x = y then 1 else 0) with
        | none => rw [hp3] at hs; cases hs
        | some v3 =>
          rw [hp3] at hs
          dsimp only at hs
          cases hs
          obtain ⟨hlen, rfl⟩ := push_eq_some hp3
          refine ⟨rfl, rfl, by simp, ?_⟩
          intro k hw _ _
          have hk : k ≠ t.sp - 1 - 1 := by simpa using hw trivial
          exact List.get?_set_ne _ _ (Ne.symm hk)

/-- Along a `Reach` chain whose side condition guarantees each step is
frame-local and avoids writing slot `k`, the frame pointer, program,
stack length and slot `k` are all preserved. -/
theorem reach_invariant {Q : VM → Cmd → VM → Prop} {s t : VM} (k : Nat)
    (hQ : ∀ t' c u', t'.fp = s.fp → Q t' c u' → t'.program.get? t'.pc = some c →
      VM.runCmd t' = some u' →
      localCmd c ∧ (writesTop c → k ≠ u'.sp - 1) ∧
      (∀ j, c = Cmd.LocalStore j → k ≠ t'.fp + j + 1) ∧
      (∀ j, c = Cmd.ArgStore j → k ≠ t'.fp - j - 2))
    (hr : Reach Q s t) :
    t.fp = s.fp ∧ t.program = s.program ∧ t.stack.length = s.stack.length ∧
    t.stack.get? k = s.stack.get? k := by
  induction hr with
  | refl => exact ⟨rfl, rfl, rfl, rfl⟩
  | step hr' hc hs hq ih =>
    obtain ⟨ihfp, ihprog, ihlen, ihget⟩ := ih
    obtain ⟨hlc, hw, hls, has⟩ := hQ _ _ _ ihfp hq hc hs
    obtain ⟨ufp, uprog, ulen, uget⟩ := runCmd_local hc hlc hs
    exact ⟨ufp.trans ihfp, uprog.trans ihprog, ulen.trans ihlen,
      (uget k hw hls has).trans ihget⟩

/-- A successful `LocalLoad i` pushes exactly the value stored in local
slot `fp + i + 1`. -/
theorem localLoad_pushes {t u : VM} {i : Nat}
    (hc : t.program.get? t.pc = some (Cmd.LocalLoad i))
    (hs : VM.runCmd t = some u) :
    ∃ x, t.stack.get? (t.fp + i + 1) = some x ∧ u.stack.get? (u.sp - 1) = some x := by
  simp only [VM.runCmd, hc] at hs
  cases hg : t.stack.get? (t.fp + i + 1) with
  | none => rw [hg] at hs; cases hs
  | some x =>
    rw [hg] at hs
    dsimp only at hs
    cases hp : VM.push t x with
    | none => rw [hp] at hs; cases hs
    | some v1 =>
      rw [hp] at hs
      dsimp only at hs
      cases hs
      obtain ⟨hlen, rfl⟩ := push_eq_some hp
      refine ⟨x, rfl, ?_⟩
      simpa using List.get?_set_eq_of_lt x hlen

/-- A successful `ArgLoad i` pushes exactly the value stored in
argument slot `fp - i - 2`. -/
theorem argLoad_pushes {t u : VM} {i : Nat}
    (hc : t.program.get? t.pc = some (Cmd.ArgLoad i))
    (hs : VM.runCmd t = some u) :
    ∃ x, t.stack.get? (t.fp - i - 2) = some x ∧ u.stack.get? (u.sp - 1) = some x := by
  simp only [VM.runCmd, hc] at hs
  by_cases hf : t.fp < i + 2
  · rw [if_pos hf] at hs; cases hs
  · rw [if_neg hf] at hs
    cases hg : t.stack.get? (t.fp - i - 2) with
    | none => rw [hg] at hs; cases hs
    | some x =>
      rw [hg] at hs
      dsimp only at hs
      cases hp : VM.push t x with
      | none => rw [hp] at hs; cases hs
      | some v1 =>
        rw [hp] at hs
        dsimp only at hs
        cases hs
        obtain ⟨hlen, rfl⟩ := push_eq_some hp
        refine ⟨x, rfl, ?_⟩
        simpa using List.get?_set_eq_of_lt x hlen

/-- Executing `Call a` and then the `Frame n` at its target sets the
callee frame up so that `fp` is just above the caller's stack top and
argument slot `fp - i - 2` holds the value the caller had at depth `i`
below its stack top. -/
theorem call_frame {s s1 s2 : VM} {a n : Nat}
    (hCall : s.program.get? s.pc = some (Cmd.Call a))
    (hFrame : s.program.get? a = some (Cmd.Frame n))
    (h1 : VM.runCmd s = some s1) (h2 : VM.runCmd s1 = some s2) :
    s2.fp = s.sp + 1 ∧ s2.sp = s.sp + n + 2 ∧ s2.program = s.program ∧
    s2.stack.length = s.stack.length ∧ s2.pc = a + 1 ∧
    ∀ i, i + 1 ≤ s.sp → s2.stack.get? (s2.fp - i - 2) = s.stack.get? (s.sp - 1 - i) := by
  simp only [VM.runCmd, hCall] at h1
  cases hp : VM.push s (s.pc + 1) with
  | none => rw [hp] at h1; cases h1
  | some w1 =>
    rw [hp] at h1
    dsimp only at h1
    cases h1
    obtain ⟨hlen1, rfl⟩ := push_eq_some hp
    simp only [VM.runCmd, hFrame] at h2
    cases hp2 : VM.push { fp := s.fp, sp := s.sp + 1, pc := a, stack := s.stack.set s.sp (s.pc + 1), program := s.program } s.fp with
    | none => rw [hp2] at h2; cases h2
    | some w2 =>
      rw [hp2] at h2
      dsimp only at h2
      cases h2
      obtain ⟨hlen2, rfl⟩ := push_eq_some hp2
      refine ⟨rfl, by dsimp only; omega, rfl, by simp, rfl, ?_⟩
      intro i hi
      have hne1 : s.sp + 1 ≠ s.sp - 1 - i := by omega
      have hne2 : s.sp ≠ s.sp - 1 - i := by omega
      have harith : s.sp + 1 + 1 - 1 - i - 2 = s.sp - 1 - i := by omega
      dsimp only
      rw [harith, List.get?_set_ne _ _ hne1, List.get?_set_ne _ _ hne2]

/-- C6: after a `Call` whose target address holds the callee's
`Frame n`, and for every valid argument index `i` of that call (the
caller's stack holds a value at depth `i` below its top), every
`ArgLoad i` executed inside the callee's frame — after any chain of
frame-local steps that store no argument and keep `sp` at or above the
callee's `fp` — pushes exactly the value the caller had pushed as the
`i`-th argument, regardless of how many locals the frame reserves or
how many temporaries are pushed and popped in between. -/
theorem argload_invariant (s s1 s2 t u : VM) (a n i : Nat)
    (hCall : s.program.get? s.pc = some (Cmd.Call a))
    (hFrame : s.program.get? a = some (Cmd.Frame n))
    (h1 : VM.runCmd s = some s1) (h2 : VM.runCmd s1 = some s2)
    (hi : i + 1 ≤ s.sp)
    (hreach : Reach (argQ (s.sp + 1)) s2 t)
    (hArg : t.program.get? t.pc = some (Cmd.ArgLoad i))
    (hu : VM.runCmd t = some u) :
    u.stack.get? (u.sp - 1) = s.stack.get? (s.sp - 1 - i) := by
  obtain ⟨hfp2, hsp2, hprog2, hlen2, hpc2, hargs⟩ := call_frame hCall hFrame h1 h2
  have hQ : ∀ t' c u', t'.fp = s2.fp → argQ (s.sp + 1) t' c u' →
      t'.program.get? t'.pc = some c → VM.runCmd t' = some u' →
      localCmd c ∧ (writesTop c → (s2.fp - i - 2) ≠ u'.sp - 1) ∧
      (∀ j, c = Cmd.LocalStore j → (s2.fp - i - 2) ≠ t'.fp + j + 1) ∧
      (∀ j, c = Cmd.ArgStore j → (s2.fp - i - 2) ≠ t'.fp - j - 2) := by
    intro t' c u' hfp' hq _ _
    obtain ⟨hlc, hnas, hsp'⟩ := hq
    refine ⟨hlc, ?_, ?_, ?_⟩
    · intro _
      omega
    · intro j _
      rw [hfp']
      omega
    · intro j hcj
      exact absurd hcj (hnas j)
  obtain ⟨tfp, tprog, tlen, tget⟩ := reach_invariant (s2.fp - i - 2) hQ hreach
  obtain ⟨x, hx1, hx2⟩ := argLoad_pushes hArg hu
  rw [tfp] at hx1
  rw [hx2, ← hx1, tget]
  rw [hargs i hi]

/-- C6 witness: `argload_invariant` on a concrete call of `ArgLoad 0`
directly after `Call`/`Frame`, recovering the argument `42` the caller
pushed. -/
theorem argload_invariant_witness :
    ([42, 2, 0, 42, 0] : List Nat).get? 3 = ([42, 2, 0, 0, 0] : List Nat).get? 0 :=
  argload_invariant
    ⟨0, 1, 1, [42, 2, 0, 0, 0], [Cmd.Ret, Cmd.Call 2, Cmd.Frame 0, Cmd.ArgLoad 0]⟩
    ⟨0, 2, 2, [42, 2, 0, 0, 0], [Cmd.Ret, Cmd.Call 2, Cmd.Frame 0, Cmd.ArgLoad 0]⟩
    ⟨2, 3, 3, [42, 2, 0, 0, 0], [Cmd.Ret, Cmd.Call 2, Cmd.Frame 0, Cmd.ArgLoad 0]⟩
    ⟨2, 3, 3, [42, 2, 0, 0, 0], [Cmd.Ret, Cmd.Call 2, Cmd.Frame 0, Cmd.ArgLoad 0]⟩
    ⟨2, 4, 4, [42, 2, 0, 42, 0], [Cmd.Ret, Cmd.Call 2, Cmd.Frame 0, Cmd.ArgLoad 0]⟩
    2 0 0 rfl rfl (by decide) (by decide) (by decide)
    (Reach.refl ⟨2, 3, 3, [42, 2, 0, 0, 0], [Cmd.Ret, Cmd.Call 2, Cmd.Frame 0, Cmd.ArgLoad 0]⟩)
    rfl (by decide)

/-- C10: `VM::new` returns a state with `fp = 0`, `sp = 0`, `pc = 0`
and a stack of exactly 1000 slots each holding `0`; consequently, in
the first frame entered by a fresh run (`Entry` then the entry
function's `Frame n`), a `LocalLoad i` with `i < n` executed before any
`LocalStore i` of that slot — i.e. after frame-local steps that avoid
storing local `i` and keep `sp` above the locals area — pushes `0`
rather than an arbitrary stale value. -/
theorem vm_new_zeroed (p : List Cmd) (a n i : Nat) (s1 s2 t u : VM) :
    (VM.new p).fp = 0 ∧ (VM.new p).sp = 0 ∧ (VM.new p).pc = 0 ∧
    (VM.new p).stack = List.replicate 1000 0 ∧
    (p.get? 0 = some (Cmd.Entry a) → p.get? a = some (Cmd.Frame n) →
      VM.runCmd (VM.new p) = some s1 → VM.runCmd s1 = some s2 → i < n →
      Reach (localQ s2.fp i) s2 t →
      t.program.get? t.pc = some (Cmd.LocalLoad i) → VM.runCmd t = some u →
      u.stack.get? (u.sp - 1) = some 0) := by
  refine ⟨rfl, rfl, rfl, rfl, ?_⟩
  intro hE hF h1 h2 hin hreach hL hu
  have hstep1 : VM.runCmd (VM.new p) = some ⟨0, 1, a, List.replicate 1000 0, p⟩ := by
    have hfetch : (⟨0, 0, 0, List.replicate 1000 0, p⟩ : VM).program.get?
        (⟨0, 0, 0, List.replicate 1000 0, p⟩ : VM).pc = some (Cmd.Entry a) := hE
    have hlen : (0 : Nat) < (List.replicate 1000 (0 : Nat)).length := by
      rw [List.length_replicate]; omega
    show VM.runCmd ⟨0, 0, 0, List.replicate 1000 0, p⟩ = _
    simp only [VM.runCmd, hfetch, VM.push]
    rw [if_pos hlen]
    rw [List.set_replicate_self]
  have hs1 : s1 = ⟨0, 1, a, List.replicate 1000 0, p⟩ :=
    Option.some.inj (h1.symm.trans hstep1)
  subst hs1
  have hstep2 : VM.runCmd ⟨0, 1, a, List.replicate 1000 0, p⟩ =
      some ⟨1, 2 + n, a + 1, List.replicate 1000 0, p⟩ := by
    have hfetch : (⟨0, 1, a, List.replicate 1000 0, p⟩ : VM).program.get?
        (⟨0, 1, a, List.replicate 1000 0, p⟩ : VM).pc = some (Cmd.Frame n) := hF
    have hlen : (1 : Nat) < (List.replicate 1000 (0 : Nat)).length := by
      rw [List.length_replicate]; omega
    simp only [VM.runCmd, hfetch, VM.push]
    rw [if_pos hlen]
    rw [List.set_replicate_self]
    dsimp only
  have hs2 : s2 = ⟨1, 2 + n, a + 1, List.replicate 1000 0, p⟩ :=
    Option.some.inj (h2.symm.trans hstep2)
  subst hs2
  have hQ : ∀ t' c u', t'.fp = (⟨1, 2 + n, a + 1, List.replicate 1000 0, p⟩ : VM).fp →
      localQ (⟨1, 2 + n, a + 1, List.replicate 1000 0, p⟩ : VM).fp i t' c u' →
      t'.program.get? t'.pc = some c → VM.runCmd t' = some u' →
      localCmd c ∧ (writesTop c → (i + 2) ≠ u'.sp - 1) ∧
      (∀ j, c = Cmd.LocalStore j → (i + 2) ≠ t'.fp + j + 1) ∧
      (∀ j, c = Cmd.ArgStore j → (i + 2) ≠ t'.fp - j - 2) := by
    intro t' c u' hfp' hq _ _
    obtain ⟨hlc, hnls, hsp'⟩ := hq
    refine ⟨hlc, ?_, ?_, ?_⟩
    · intro hwt
      have := hsp' hwt
      simp only at this ⊢
      omega
    · intro j hcj
      have hji : j ≠ i := hnls j hcj
      rw [hfp']
      simp only
      omega
    · intro j _
      rw [hfp']
      simp only
      omega
  obtain ⟨tfp, tprog, tlen, tget⟩ := reach_invariant (i + 2) hQ hreach
  obtain ⟨x, hx1, hx2⟩ := localLoad_pushes hL hu
  rw [tfp] at hx1
  simp only at hx1
  have harith : 1 + i + 1 = i + 2 := by omega
  rw [harith] at hx1
  rw [tget] at hx1
  simp only at hx1
  rw [List.get?_eq_getElem?, List.getElem?_replicate] at hx1
  by_cases hlt : i + 2 < 1000
  · rw [if_pos hlt] at hx1
    cases hx1
    exact hx2
  · rw [if_neg hlt] at hx1
    cases hx1

set_option maxRecDepth 100000 in
/-- C10 witness: `vm_new_zeroed` on the concrete fresh run of
`[Entry 1, Frame 1, LocalLoad 0]`, whose first `LocalLoad 0` pushes
`0`. -/
theorem vm_new_zeroed_witness :
    ((List.replicate 1000 (0 : Nat)).set 3 0).get? 3 = some 0 :=
  (vm_new_zeroed [Cmd.Entry 1, Cmd.Frame 1, Cmd.LocalLoad 0] 1 1 0
    ⟨0, 1, 1, List.replicate 1000 0, [Cmd.Entry 1, Cmd.Frame 1, Cmd.LocalLoad 0]⟩
    ⟨1, 3, 2, List.replicate 1000 0, [Cmd.Entry 1, Cmd.Frame 1, Cmd.LocalLoad 0]⟩
    ⟨1, 3, 2, List.replicate 1000 0, [Cmd.Entry 1, Cmd.Frame 1, Cmd.LocalLoad 0]⟩
    ⟨1, 4, 3, (List.replicate 1000 0).set 3 0, [Cmd.Entry 1, Cmd.Frame 1, Cmd.LocalLoad 0]⟩).2.2.2.2
    rfl rfl (by decide) (by decide) (by decide)
    (Reach.refl ⟨1, 3, 2, List.replicate 1000 0, [Cmd.Entry 1, Cmd.Frame 1, Cmd.LocalLoad 0]⟩)
    rfl (by decide)

/-! ### Structure of the linker's emission pass -/


theorem mapOpt_some {f : α → Option β} : ∀ {xs : List α} {ys : List β},
    mapOpt f xs = some ys →
    ys.length = xs.length ∧ ∀ k x, xs.get? k = some x → ys.get? k = f x := by
  intro xs
  induction xs with
  | nil =>
    intro ys h
    cases h
    exact ⟨rfl, fun k x hx => by cases hx⟩
  | cons a xs ih =>
    intro ys h
    unfold mapOpt at h
    cases hfa : f a with
    | none => rw [hfa] at h; cases h
    | some y =>
      rw [hfa] at h
      cases hrest : mapOpt f xs with
      | none => rw [hrest] at h; cases h
      | some ys' =>
        rw [hrest] at h
        dsimp only at h
        cases h
        obtain ⟨hlen, hget⟩ := ih hrest
        refine ⟨by simp [hlen], ?_⟩
        intro k x hx
        cases k with
        | zero =>
          cases hx
          simpa using hfa.symm
        | succ k =>
          simp only [List.get?_cons_succ] at hx ⊢
          exact hget k x hx

theorem mapOpt_isSome {f : α → Option β} : ∀ {xs : List α},
    (∀ x ∈ xs, (f x).isSome) → ∃ ys, mapOpt f xs = some ys := by
  intro xs
  induction xs with
  | nil => intro _; exact ⟨[], rfl⟩
  | cons a xs ih =>
    intro h
    obtain ⟨y, hy⟩ := Option.isSome_iff_exists.mp (h a (List.mem_cons_self a xs))
    obtain ⟨ys, hys⟩ := ih (fun x hx => h x (List.mem_cons_of_mem a hx))
    exact ⟨y :: ys, by unfold mapOpt; rw [hy, hys]⟩

theorem mapOpt_none_of_mem {f : α → Option β} : ∀ {xs : List α} {x : α},
    x ∈ xs → f x = none → mapOpt f xs = none := by
  intro xs
  induction xs with
  | nil => intro x hx; cases hx
  | cons a xs ih =>
    intro x hx hfx
    rcases List.mem_cons.mp hx with rfl | hx'
    · unfold mapOpt
      rw [hfx]
    · unfold mapOpt
      rw [ih hx' hfx]
      cases f a <;> rfl



theorem opConvert_ne_frame (i : Nat) (op : Op) (m : Nat) :
    Op.convert i op ≠ LLangCmd.Frame m := by
  cases op <;> simp [Op.convert]

theorem opConvert_ne_entry (i : Nat) (op : Op) (e : Nat) :
    Op.convert i op ≠ LLangCmd.Entry e := by
  cases op <;> simp [Op.convert]

theorem push_funcs_of_ne_frame (g : CmdGen) (c : LLangCmd)
    (h : ∀ m, c ≠ LLangCmd.Frame m) : (g.push c).funcs = g.funcs := by
  cases c <;> first | rfl | exact absurd rfl (h _)

theorem opsFold (i : Nat) : ∀ (ops : List Op) (g : CmdGen),
    (ops.foldl (fun g op => g.push (op.convert i)) g).cmds
        = g.cmds ++ ops.map (Op.convert i) ∧
    (ops.foldl (fun g op => g.push (op.convert i)) g).funcs = g.funcs := by
  intro ops
  induction ops with
  | nil => intro g; simp
  | cons op ops ih =>
    intro g
    obtain ⟨h1, h2⟩ := ih (g.push (op.convert i))
    constructor
    · rw [List.foldl_cons, h1]
      show (g.push (op.convert i)).cmds ++ _ = _
      simp [CmdGen.push]
    · rw [List.foldl_cons, h2]
      exact push_funcs_of_ne_frame g _ (opConvert_ne_frame i op)

theorem funcConvert_cmds (f : Func) (i : Nat) (g : CmdGen) :
    (f.convert i g).cmds = g.cmds ++ funcFlat i f ∧
    (f.convert i g).funcs = g.funcs ++ [g.cmds.length] := by
  obtain ⟨h1, h2⟩ := opsFold i f.ops (g.push (LLangCmd.Frame f.local_count))
  have hpc : (g.push (LLangCmd.Frame f.local_count)).cmds
      = g.cmds ++ [LLangCmd.Frame f.local_count] := rfl
  have hpf : (g.push (LLangCmd.Frame f.local_count)).funcs
      = g.funcs ++ [g.cmds.length] := rfl
  unfold Func.convert
  constructor
  · have hrc : ∀ G : CmdGen, (G.push LLangCmd.Ret).cmds = G.cmds ++ [LLangCmd.Ret] := fun G => rfl
    rw [hrc, h1, hpc]
    simp [funcFlat]
  · have hrf : ∀ G : CmdGen, (G.push LLangCmd.Ret).funcs = G.funcs := fun G => rfl
    rw [hrf, h2, hpf]



theorem enumFoldl : ∀ (fs : List Func) (k : Nat) (g : CmdGen),
    ((List.enumFrom k fs).foldl (fun g p => p.2.convert p.1 g) g).cmds
        = g.cmds ++ segsFrom k fs ∧
    ((List.enumFrom k fs).foldl (fun g p => p.2.convert p.1 g) g).funcs
        = g.funcs ++ partialStarts g.cmds.length fs := by
  intro fs
  induction fs with
  | nil => intro k g; simp [segsFrom, partialStarts]
  | cons f fs ih =>
    intro k g
    have hstep : List.enumFrom k (f :: fs) = (k, f) :: List.enumFrom (k + 1) fs := rfl
    rw [hstep, List.foldl_cons]
    obtain ⟨hc, hf⟩ := funcConvert_cmds f k g
    obtain ⟨ihc, ihf⟩ := ih (k + 1) (f.convert k g)
    constructor
    · rw [ihc, hc]
      simp [segsFrom]
    · rw [ihf, hf, hc]
      have hlen : (g.cmds ++ funcFlat k f).length = g.cmds.length + funcLen f := by
        simp [funcFlat, funcLen]
      rw [hlen]
      show (g.funcs ++ [g.cmds.length]) ++ partialStarts (g.cmds.length + funcLen f) fs
          = g.funcs ++ partialStarts g.cmds.length (f :: fs)
      rw [List.append_assoc]
      rfl

theorem gen_cmds (l : LLang) :
    l.gen.cmds = LLangCmd.Entry l.entry :: segsFrom 0 l.funcs ∧
    l.gen.funcs = partialStarts 1 l.funcs := by
  unfold LLang.gen
  have henum : l.funcs.enum = List.enumFrom 0 l.funcs := rfl
  rw [henum]
  obtain ⟨hc, hf⟩ := enumFoldl l.funcs 0 (CmdGen.new.push (LLangCmd.Entry l.entry))
  have h1 : (CmdGen.new.push (LLangCmd.Entry l.entry)).cmds = [LLangCmd.Entry l.entry] := rfl
  have h2 : (CmdGen.new.push (LLangCmd.Entry l.entry)).funcs = [] := rfl
  rw [hc, hf, h1, h2]
  simp

theorem partialStarts_length : ∀ (fs : List Func) (b : Nat),
    (partialStarts b fs).length = fs.length := by
  intro fs
  induction fs with
  | nil => intro b; rfl
  | cons f fs ih => intro b; simp [partialStarts, ih]

theorem partialStarts_get? : ∀ (fs : List Func) (b j : Nat), j < fs.length →
    (partialStarts b fs).get? j = some (b + ((fs.take j).map funcLen).sum) := by
  intro fs
  induction fs with
  | nil => intro b j hj; simp at hj
  | cons f fs ih =>
    intro b j hj
    cases j with
    | zero => simp [partialStarts]
    | succ j =>
      simp only [partialStarts, List.get?_cons_succ]
      rw [ih (b + funcLen f) j (by simpa using hj)]
      simp [List.take_succ_cons]
      omega

theorem gen_table (l : LLang) (j : Nat) (hj : j < l.funcs.length) :
    l.gen.funcs.get? j = some (startAddr l.funcs j) := by
  rw [(gen_cmds l).2, partialStarts_get? l.funcs 1 j hj]
  rfl

theorem gen_table_length (l : LLang) : l.gen.funcs.length = l.funcs.length := by
  rw [(gen_cmds l).2, partialStarts_length]



theorem funcFlat_length (i : Nat) (f : Func) : (funcFlat i f).length = funcLen f := by
  simp [funcFlat, funcLen]

theorem funcFlat_get?_zero (i : Nat) (f : Func) :
    (funcFlat i f).get? 0 = some (LLangCmd.Frame f.local_count) := rfl

theorem funcFlat_get?_op (i : Nat) (f : Func) (x : Nat) (op : Op)
    (hx : f.ops.get? x = some op) :
    (funcFlat i f).get? (1 + x) = some (Op.convert i op) := by
  have hxl : x < f.ops.length := (List.get?_eq_some.mp hx).1
  have h1 : (1 : Nat) + x = x + 1 := Nat.add_comm 1 x
  rw [funcFlat, h1, List.get?_cons_succ]
  rw [List.get?_append (by simpa using hxl)]
  rw [List.get?_map, hx]
  rfl

theorem funcFlat_get?_ret (i : Nat) (f : Func) :
    (funcFlat i f).get? (1 + f.ops.length) = some LLangCmd.Ret := by
  have h1 : (1 : Nat) + f.ops.length = f.ops.length + 1 := Nat.add_comm _ _
  rw [funcFlat, h1, List.get?_cons_succ]
  rw [List.get?_append_right (by simp)]
  simp

theorem segsFrom_get? : ∀ (fs : List Func) (k j : Nat) (f : Func) (o : Nat),
    fs.get? j = some f → o < funcLen f →
    (segsFrom k fs).get? (((fs.take j).map funcLen).sum + o)
      = (funcFlat (k + j) f).get? o := by
  intro fs
  induction fs with
  | nil => intro k j f o hj _; cases hj
  | cons f0 fs ih =>
    intro k j f o hj ho
    cases j with
    | zero =>
      cases hj
      simp only [List.take_zero, List.map_nil, List.sum_nil, Nat.zero_add, segsFrom]
      rw [List.get?_append (by rw [funcFlat_length]; exact ho)]
      rfl
    | succ j =>
      simp only [List.get?_cons_succ] at hj
      simp only [List.take_succ_cons, List.map_cons, List.sum_cons, segsFrom]
      rw [List.get?_append_right (by rw [funcFlat_length]; omega)]
      have harith : funcLen f0 + ((fs.take j).map funcLen).sum + o - (funcFlat k f0).length
          = ((fs.take j).map funcLen).sum + o := by
        rw [funcFlat_length]; omega
      rw [harith, ih (k + 1) j f o hj ho]
      have : k + 1 + j = k + (j + 1) := by omega
      rw [this]

theorem gen_cmds_get? (l : LLang) (j : Nat) (f : Func) (hj : l.funcs.get? j = some f) :
    l.gen.cmds.get? (startAddr l.funcs j) = some (LLangCmd.Frame f.local_count) ∧
    (∀ x op, f.ops.get? x = some op →
      l.gen.cmds.get? (startAddr l.funcs j + 1 + x) = some (Op.convert j op)) ∧
    l.gen.cmds.get? (startAddr l.funcs j + 1 + f.ops.length) = some LLangCmd.Ret := by
  rw [(gen_cmds l).1]
  have hfl : funcLen f = f.ops.length + 2 := rfl
  refine ⟨?_, ?_, ?_⟩
  · have h1 : startAddr l.funcs j = ((l.funcs.take j).map funcLen).sum + 1 := by
      unfold startAddr; omega
    rw [h1, List.get?_cons_succ]
    have hseg := segsFrom_get? l.funcs 0 j f 0 hj (by omega)
    rw [Nat.add_zero] at hseg
    rw [hseg]
    exact funcFlat_get?_zero _ _
  · intro x op hx
    have hxl : x < f.ops.length := (List.get?_eq_some.mp hx).1
    have h1 : startAddr l.funcs j + 1 + x
        = ((l.funcs.take j).map funcLen).sum + (1 + x) + 1 := by
      unfold startAddr; omega
    rw [h1, List.get?_cons_succ]
    rw [segsFrom_get? l.funcs 0 j f (1 + x) hj (by omega)]
    rw [Nat.zero_add]
    exact funcFlat_get?_op j f x op hx
  · have h1 : startAddr l.funcs j + 1 + f.ops.length
        = ((l.funcs.take j).map funcLen).sum + (1 + f.ops.length) + 1 := by
      unfold startAddr; omega
    rw [h1, List.get?_cons_succ]
    rw [segsFrom_get? l.funcs 0 j f (1 + f.ops.length) hj (by omega)]
    exact funcFlat_get?_ret _ _



theorem toCmd_entry_inv {T : List Nat} {c : LLangCmd} {e : Nat}
    (h : LLangCmd.toCmd T c = some (Cmd.Entry e)) : ∃ i, c = LLangCmd.Entry i := by
  cases c <;> simp only [LLangCmd.toCmd] at h
  case Entry i => exact ⟨i, rfl⟩
  case Call i =>
    obtain ⟨a, _, hbad⟩ := Option.map_eq_some'.mp h
    cases hbad
  case JumpIf i x =>
    obtain ⟨a, _, hbad⟩ := Option.map_eq_some'.mp h
    cases hbad
  case Jump i x =>
    obtain ⟨a, _, hbad⟩ := Option.map_eq_some'.mp h
    cases hbad
  all_goals cases h

theorem segsFrom_no_entry : ∀ (fs : List Func) (k : Nat) (c : LLangCmd),
    c ∈ segsFrom k fs → ∀ e, c ≠ LLangCmd.Entry e := by
  intro fs
  induction fs with
  | nil => intro k c hc; cases hc
  | cons f0 fs ih =>
    intro k c hc e
    rcases List.mem_append.mp hc with h | h
    · simp only [funcFlat, List.mem_cons, List.mem_append, List.mem_map,
        List.mem_singleton, List.not_mem_nil, or_false] at h
      rcases h with rfl | ⟨⟨op, _, rfl⟩ | rfl⟩
      · intro hbad; cases hbad
      · exact opConvert_ne_entry _ op e
      · intro hbad; cases hbad
    · exact ih (k + 1) c h e

theorem segsFrom_mem : ∀ (fs : List Func) (k : Nat) (c : LLangCmd),
    c ∈ segsFrom k fs →
    (∃ m, c = LLangCmd.Frame m) ∨ c = LLangCmd.Ret ∨
    (∃ j f op, fs.get? j = some f ∧ op ∈ f.ops ∧ c = Op.convert (k + j) op) := by
  intro fs
  induction fs with
  | nil => intro k c hc; cases hc
  | cons f0 fs ih =>
    intro k c hc
    rcases List.mem_append.mp hc with h | h
    · simp only [funcFlat, List.mem_cons, List.mem_append, List.mem_map,
        List.mem_singleton, List.not_mem_nil, or_false] at h
      rcases h with rfl | ⟨⟨op, hop, rfl⟩ | rfl⟩
      · exact Or.inl ⟨f0.local_count, rfl⟩
      · exact Or.inr (Or.inr ⟨0, f0, op, rfl, hop, by rw [Nat.add_zero]⟩)
      · exact Or.inr (Or.inl rfl)
    · rcases ih (k + 1) c h with h1 | h1 | ⟨j, f, op, hj, hop, rfl⟩
      · exact Or.inl h1
      · exact Or.inr (Or.inl h1)
      · refine Or.inr (Or.inr ⟨j + 1, f, op, by simpa using hj, hop, ?_⟩)
        have : k + 1 + j = k + (j + 1) := by omega
        rw [this]



/-- C4: for every structured program whose linking succeeds, a
`Jump x` or `JumpIf x` at zero-based index `x` (here the operation at
index position `x`) of function `j`'s own operation list resolves to
`startAddr j + 1 + x` at emission position, targeting
`startAddr j + 1 + tgt` — where `j` is always the function currently
being emitted, the `+1` skips that function's own `Frame`, and the
operand is interpreted as a zero-based index into that same function's
operation list, never a cross-function or absolute offset. -/
theorem jump_resolution (l : LLang) (cs : List Cmd) (j x tgt : Nat) (f : Func)
    (hcv : l.convert = some cs) (hj : l.funcs.get? j = some f) :
    (f.ops.get? x = some (Op.Jump tgt) →
      cs.get? (startAddr l.funcs j + 1 + x)
        = some (Cmd.Jump (startAddr l.funcs j + 1 + tgt))) ∧
    (f.ops.get? x = some (Op.JumpIf tgt) →
      cs.get? (startAddr l.funcs j + 1 + x)
        = some (Cmd.JumpIf (startAddr l.funcs j + 1 + tgt))) := by
  have hjlt : j < l.funcs.length := (List.get?_eq_some.mp hj).1
  obtain ⟨hlen, hget⟩ := mapOpt_some hcv
  have htab := gen_table l j hjlt
  have harith : startAddr l.funcs j + tgt + 1 = startAddr l.funcs j + 1 + tgt := by omega
  constructor
  · intro hx
    have hop := (gen_cmds_get? l j f hj).2.1 x (Op.Jump tgt) hx
    have := hget _ _ hop
    rw [this]
    simp only [Op.convert, LLangCmd.toCmd, htab, Option.map_some']
    rw [harith]
  · intro hx
    have hop := (gen_cmds_get? l j f hj).2.1 x (Op.JumpIf tgt) hx
    have := hget _ _ hop
    rw [this]
    simp only [Op.convert, LLangCmd.toCmd, htab, Option.map_some']
    rw [harith]



/-- C3: the linker emits exactly one `Entry` instruction, at flat
index 0; for each function `j` in program order it records the emission
position reached at that moment (`startAddr`, also stored in the
generator's table) as the function's start address, emits
`Frame(local_count)` at that position, emits each structured operation
in order translated to its flat form, and emits `Return`; and
`startAddr j` equals `1` plus the sum over `k < j` of
`2 + length of function k's operation list`. -/
theorem link_layout (l : LLang) (cs : List Cmd) (hcv : l.convert = some cs) :
    (∃ e, cs.get? 0 = some (Cmd.Entry e)) ∧
    (∀ k e, cs.get? k = some (Cmd.Entry e) → k = 0) ∧
    (∀ j, startAddr l.funcs j
        = 1 + ((l.funcs.take j).map (fun f => 2 + f.ops.length)).sum) ∧
    (∀ j f, l.funcs.get? j = some f →
      l.gen.funcs.get? j = some (startAddr l.funcs j) ∧
      cs.get? (startAddr l.funcs j) = some (Cmd.Frame f.local_count) ∧
      (∀ x op, f.ops.get? x = some op →
        cs.get? (startAddr l.funcs j + 1 + x)
          = LLangCmd.toCmd l.gen.funcs (Op.convert j op)) ∧
      cs.get? (startAddr l.funcs j + 1 + f.ops.length) = some Cmd.Ret) := by
  obtain ⟨hlen, hget⟩ := mapOpt_some hcv
  have hhead : l.gen.cmds.get? 0 = some (LLangCmd.Entry l.entry) := by
    rw [(gen_cmds l).1]
    rfl
  have hcs0 := hget 0 _ hhead
  refine ⟨?_, ?_, ?_, ?_⟩
  · have hpos : 0 < cs.length := by
      rw [hlen, (gen_cmds l).1]
      simp
    have hc0 : cs.get? 0 = some (cs.get ⟨0, hpos⟩) := List.get?_eq_get hpos
    rw [hc0] at hcs0
    simp only [LLangCmd.toCmd] at hcs0
    obtain ⟨a, ha, hae⟩ := Option.map_eq_some'.mp hcs0.symm
    exact ⟨a, by rw [hc0, ← hae]⟩
  · intro k e hk
    by_contra hk0
    have hklen : k < cs.length := (List.get?_eq_some.mp hk).1
    have hklen' : k < l.gen.cmds.length := by rw [← hlen]; exact hklen
    have hc : l.gen.cmds.get? k = some (l.gen.cmds.get ⟨k, hklen'⟩) :=
      List.get?_eq_get hklen'
    have := hget k _ hc
    rw [hk] at this
    obtain ⟨i, heq⟩ := toCmd_entry_inv this.symm
    rw [heq] at hc
    obtain ⟨m, hm⟩ := Nat.exists_eq_succ_of_ne_zero hk0
    subst hm
    rw [(gen_cmds l).1, List.get?_cons_succ] at hc
    exact segsFrom_no_entry l.funcs 0 _ (List.get?_mem hc) i rfl
  · intro j
    unfold startAddr
    have : ∀ fs : List Func, (fs.map funcLen).sum
        = (fs.map (fun f => 2 + f.ops.length)).sum := by
      intro fs
      induction fs with
      | nil => rfl
      | cons f fs ih => simp [funcLen, ih]; omega
    rw [this]
  · intro j f hj
    have hjlt : j < l.funcs.length := (List.get?_eq_some.mp hj).1
    obtain ⟨hframe, hops, hret⟩ := gen_cmds_get? l j f hj
    refine ⟨gen_table l j hjlt, ?_, ?_, ?_⟩
    · rw [hget _ _ hframe]
      rfl
    · intro x op hx
      exact hget _ _ (hops x op hx)
    · rw [hget _ _ hret]
      rfl



theorem convert_total (l : LLang) (hwf : l.wf) : ∃ cs, l.convert = some cs := by
  obtain ⟨hentry, hops⟩ := hwf
  apply mapOpt_isSome
  intro c hc
  have htl : l.gen.funcs.length = l.funcs.length := gen_table_length l
  rw [(gen_cmds l).1] at hc
  rcases List.mem_cons.mp hc with rfl | hc'
  · simp only [LLangCmd.toCmd]
    have : l.gen.funcs.get? l.entry ≠ none := by
      intro hnone
      have := List.get?_eq_none.mp hnone
      omega
    cases hg : l.gen.funcs.get? l.entry with
    | none => exact absurd hg this
    | some a => simp [hg]
  · rcases segsFrom_mem l.funcs 0 c hc' with ⟨m, rfl⟩ | rfl | ⟨j, f, op, hj, hop, rfl⟩
    · rfl
    · rfl
    · have hjlt : j < l.funcs.length := (List.get?_eq_some.mp hj).1
      have hfmem : f ∈ l.funcs := List.get?_mem hj
      have hrange := hops f hfmem op hop
      cases op with
      | Call i =>
        simp only [opInRange, decide_eq_true_eq] at hrange
        simp only [Op.convert, LLangCmd.toCmd]
        have : l.gen.funcs.get? i ≠ none := by
          intro hnone
          have := List.get?_eq_none.mp hnone
          omega
        cases hg : l.gen.funcs.get? i with
        | none => exact absurd hg this
        | some a => simp [hg]
      | Jump x =>
        simp only [Op.convert, LLangCmd.toCmd]
        have : l.gen.funcs.get? (0 + j) ≠ none := by
          intro hnone
          have := List.get?_eq_none.mp hnone
          omega
        cases hg : l.gen.funcs.get? (0 + j) with
        | none => exact absurd hg this
        | some a => simp [hg]
      | JumpIf x =>
        simp only [Op.convert, LLangCmd.toCmd]
        have : l.gen.funcs.get? (0 + j) ≠ none := by
          intro hnone
          have := List.get?_eq_none.mp hnone
          omega
        cases hg : l.gen.funcs.get? (0 + j) with
        | none => exact absurd hg this
        | some a => simp [hg]
      | LocalLoad x => rfl
      | LocalStore x => rfl
      | ArgLoad x => rfl
      | ArgStore x => rfl
      | Const x => rfl
      | Add => rfl
      | Mod => rfl
      | Eq => rfl
      | PopR x => rfl

/-- C2: for every structured program in which the entry index and
every function index referenced by `Call` and every jump operation
index are within the declared tables, linking succeeds, the output's
`Entry` target equals the emitted start address of the designated entry
function, every resolved `Call` address points at a `Frame`
instruction, and every resolved `Jump`/`JumpIf` address equals
`startAddr j + 1 + tgt` with `tgt` an in-bounds index of the current
function's operation list — an in-bounds position inside that
function's body. -/
theorem round_trip_linking (l : LLang) (hwf : l.wf) :
    ∃ cs, l.convert = some cs ∧
      cs.get? 0 = some (Cmd.Entry (startAddr l.funcs l.entry)) ∧
      (∀ j f, l.funcs.get? j = some f →
        cs.get? (startAddr l.funcs j) = some (Cmd.Frame f.local_count)) ∧
      (∀ j f x tgt, l.funcs.get? j = some f → f.ops.get? x = some (Op.Call tgt) →
        ∃ ft, l.funcs.get? tgt = some ft ∧
          cs.get? (startAddr l.funcs j + 1 + x)
            = some (Cmd.Call (startAddr l.funcs tgt)) ∧
          cs.get? (startAddr l.funcs tgt) = some (Cmd.Frame ft.local_count)) ∧
      (∀ j f x tgt, l.funcs.get? j = some f →
        f.ops.get? x = some (Op.Jump tgt) ∨ f.ops.get? x = some (Op.JumpIf tgt) →
        tgt < f.ops.length ∧
        (f.ops.get? x = some (Op.Jump tgt) →
          cs.get? (startAddr l.funcs j + 1 + x)
            = some (Cmd.Jump (startAddr l.funcs j + 1 + tgt))) ∧
        (f.ops.get? x = some (Op.JumpIf tgt) →
          cs.get? (startAddr l.funcs j + 1 + x)
            = some (Cmd.JumpIf (startAddr l.funcs j + 1 + tgt)))) := by
  obtain ⟨cs, hcv⟩ := convert_total l hwf
  obtain ⟨hentry, hops⟩ := hwf
  obtain ⟨hlen, hget⟩ := mapOpt_some hcv
  have hframe : ∀ j f, l.funcs.get? j = some f →
      cs.get? (startAddr l.funcs j) = some (Cmd.Frame f.local_count) := by
    intro j f hj
    rw [hget _ _ (gen_cmds_get? l j f hj).1]
    rfl
  refine ⟨cs, hcv, ?_, hframe, ?_, ?_⟩
  · have hhead : l.gen.cmds.get? 0 = some (LLangCmd.Entry l.entry) := by
      rw [(gen_cmds l).1]
      rfl
    rw [hget _ _ hhead]
    simp only [LLangCmd.toCmd, gen_table l l.entry hentry, Option.map_some']
  · intro j f x tgt hj hx
    have hfmem : f ∈ l.funcs := List.get?_mem hj
    have hopmem : Op.Call tgt ∈ f.ops := List.get?_mem hx
    have htgt : tgt < l.funcs.length := by
      have := hops f hfmem _ hopmem
      simpa [opInRange] using this
    have hft : l.funcs.get? tgt = some (l.funcs.get ⟨tgt, htgt⟩) := List.get?_eq_get htgt
    refine ⟨l.funcs.get ⟨tgt, htgt⟩, hft, ?_, hframe tgt _ hft⟩
    rw [hget _ _ ((gen_cmds_get? l j f hj).2.1 x _ hx)]
    simp only [Op.convert, LLangCmd.toCmd, gen_table l tgt htgt, Option.map_some']
  · intro j f x tgt hj hx
    have hjlt : j < l.funcs.length := (List.get?_eq_some.mp hj).1
    have hfmem : f ∈ l.funcs := List.get?_mem hj
    have htgtlt : tgt < f.ops.length := by
      rcases hx with hx | hx
      · have := hops f hfmem _ (List.get?_mem hx)
        simpa [opInRange] using this
      · have := hops f hfmem _ (List.get?_mem hx)
        simpa [opInRange] using this
    exact ⟨htgtlt, fun hx' => (jump_resolution l cs j x tgt f hcv hj).1 hx',
      fun hx' => (jump_resolution l cs j x tgt f hcv hj).2 hx'⟩



/-- C8 (amended): a `Call` or `Entry` function index outside the
function table makes linking fail (the conversion returns no flat
program — the Rust table lookup panics); a `Jump`/`JumpIf` operation
index outside the enclosing function's operation list, however, does
not fail: see the counterexample. -/
theorem link_oob (l : LLang) :
    (l.funcs.length ≤ l.entry → l.convert = none) ∧
    (∀ j f x tgt, l.funcs.get? j = some f → f.ops.get? x = some (Op.Call tgt) →
      l.funcs.length ≤ tgt → l.convert = none) := by
  have htl : l.gen.funcs.length = l.funcs.length := gen_table_length l
  constructor
  · intro hoob
    apply mapOpt_none_of_mem (x := LLangCmd.Entry l.entry)
    · rw [(gen_cmds l).1]
      exact List.mem_cons_self _ _
    · simp only [LLangCmd.toCmd]
      rw [List.get?_eq_none.mpr (by omega)]
      rfl
  · intro j f x tgt hj hx hoob
    have hop := (gen_cmds_get? l j f hj).2.1 x _ hx
    apply mapOpt_none_of_mem (x := Op.convert j (Op.Call tgt))
    · exact List.get?_mem hop
    · simp only [Op.convert, LLangCmd.toCmd]
      rw [List.get?_eq_none.mpr (by omega)]
      rfl

/-- C8 counterexample: a program whose only jump targets operation
index 5 of a one-operation function links successfully — producing
address 7, outside the 4-instruction output — instead of failing. -/
theorem link_oob_jump_claim_false :
    (LLang.mk 0 [Func.mk 0 [Op.Jump 5]]).convert
      = some [Cmd.Entry 1, Cmd.Frame 0, Cmd.Jump 7, Cmd.Ret] ∧
    (Func.mk 0 [Op.Jump 5]).ops.length ≤ 5 := by decide

/-- C8 witness: `link_oob` on a concrete out-of-range entry index and
a concrete out-of-range `Call` index. -/
theorem link_oob_witness :
    (LLang.mk 2 [Func.mk 0 []]).convert = none ∧
    (LLang.mk 0 [Func.mk 0 [Op.Call 3]]).convert = none :=
  ⟨(link_oob (LLang.mk 2 [Func.mk 0 []])).1 (by decide),
   (link_oob (LLang.mk 0 [Func.mk 0 [Op.Call 3]])).2 0 (Func.mk 0 [Op.Call 3]) 0 3
     rfl rfl (by decide)⟩

/-- C2 witness: `round_trip_linking` on a concrete two-function
program; its `Entry` targets address 1, the start of function 0. -/
theorem round_trip_linking_witness :
    ([Cmd.Entry 1, Cmd.Frame 0, Cmd.Call 4, Cmd.Ret, Cmd.Frame 2, Cmd.Jump 5,
      Cmd.JumpIf 6, Cmd.Ret] : List Cmd).get? 0 = some (Cmd.Entry 1) := by
  obtain ⟨cs, hcv, hE, _⟩ := round_trip_linking
    (LLang.mk 0 [Func.mk 0 [Op.Call 1], Func.mk 2 [Op.Jump 0, Op.JumpIf 1]])
    (by unfold LLang.wf; decide)
  have hconc : (LLang.mk 0 [Func.mk 0 [Op.Call 1],
      Func.mk 2 [Op.Jump 0, Op.JumpIf 1]]).convert
      = some [Cmd.Entry 1, Cmd.Frame 0, Cmd.Call 4, Cmd.Ret, Cmd.Frame 2, Cmd.Jump 5,
        Cmd.JumpIf 6, Cmd.Ret] := by decide
  rw [hconc] at hcv
  cases hcv
  have hsa : startAddr (LLang.mk 0 [Func.mk 0 [Op.Call 1],
      Func.mk 2 [Op.Jump 0, Op.JumpIf 1]]).funcs 0 = 1 := by decide
  rw [hsa] at hE
  exact hE

/-- C3 witness: `link_layout` on a concrete two-function program;
function 1 starts at address 4 = 1 + (2 + 1), where its `Frame 2` is
emitted. -/
theorem link_layout_witness :
    ([Cmd.Entry 1, Cmd.Frame 0, Cmd.Call 4, Cmd.Ret, Cmd.Frame 2, Cmd.Jump 5,
      Cmd.JumpIf 6, Cmd.Ret] : List Cmd).get? 4 = some (Cmd.Frame 2) := by
  obtain ⟨_, _, _, h4⟩ := link_layout
    (LLang.mk 0 [Func.mk 0 [Op.Call 1], Func.mk 2 [Op.Jump 0, Op.JumpIf 1]])
    [Cmd.Entry 1, Cmd.Frame 0, Cmd.Call 4, Cmd.Ret, Cmd.Frame 2, Cmd.Jump 5,
      Cmd.JumpIf 6, Cmd.Ret] (by decide)
  obtain ⟨htab, hframe, _, _⟩ := h4 1 (Func.mk 2 [Op.Jump 0, Op.JumpIf 1]) (by decide)
  have hsa : startAddr (LLang.mk 0 [Func.mk 0 [Op.Call 1],
      Func.mk 2 [Op.Jump 0, Op.JumpIf 1]]).funcs 1 = 4 := by decide
  rw [hsa] at hframe
  exact hframe

/-- C4 witness: `jump_resolution` on a concrete program; the
`Jump 0` at operation index 0 of function 1 (start address 4) resolves
to address 5 = 4 + 1 + 0. -/
theorem jump_resolution_witness :
    ([Cmd.Entry 1, Cmd.Frame 0, Cmd.Call 4, Cmd.Ret, Cmd.Frame 2, Cmd.Jump 5,
      Cmd.JumpIf 6, Cmd.Ret] : List Cmd).get? 5 = some (Cmd.Jump 5) := by
  have h := (jump_resolution
    (LLang.mk 0 [Func.mk 0 [Op.Call 1], Func.mk 2 [Op.Jump 0, Op.JumpIf 1]])
    [Cmd.Entry 1, Cmd.Frame 0, Cmd.Call 4, Cmd.Ret, Cmd.Frame 2, Cmd.Jump 5,
      Cmd.JumpIf 6, Cmd.Ret] 1 0 0 (Func.mk 2 [Op.Jump 0, Op.JumpIf 1])
    (by decide) (by decide)).1 rfl
  have hsa : startAddr (LLang.mk 0 [Func.mk 0 [Op.Call 1],
      Func.mk 2 [Op.Jump 0, Op.JumpIf 1]]).funcs 1 + 1 + 0 = 5 := by decide
  rw [hsa] at h
  exact h


end StackVM
